import Mathlib

/-!
Verification of the GhostSolver program (ghostSolver.py): a solver for the
word game "Ghost".  The Python trie is a dict mapping letters to sub-tries;
we embed it as an inductive tree whose children are an association list in
dict insertion order (Python 3.7+ dicts iterate in insertion order).
-/

namespace GhostSolver

/-- A trie node: association list from letter to child, in insertion order.
A node with an empty list is a leaf, marking a complete accepted word. -/
inductive Trie where
  | node : List (Char × Trie) → Trie
deriving Repr

/-- The children association list of a node (`trie.keys`/items in Python). -/
def Trie.children : Trie → List (Char × Trie)
  | .node cs => cs

/-- `not trie` in Python: a node is a leaf iff its dict is empty. -/
def Trie.isLeaf (t : Trie) : Bool := t.children.isEmpty

/-- `letter in p` followed by `p[letter]`: association-list lookup. -/
def lookupChild : List (Char × Trie) → Char → Option Trie
  | [], _ => none
  | (k, c) :: rest, l => if k = l then some c else lookupChild rest l

/-- `p[letter] = v` on an existing key: replace in place, keeping position. -/
def updateChild : List (Char × Trie) → Char → Trie → List (Char × Trie)
  | [], _, _ => []
  | (k, c) :: rest, l, t => if k = l then (k, t) :: rest else (k, c) :: updateChild rest l t

/-- The inner letter loop of `buildTrie` for one word: walk the trie from `t`
consuming letters of `w`, with the `newnode` flag of the Python code.
If the letter exists, descend (newnode := False).  Otherwise, if the current
node is non-empty or newnode holds, append a fresh child (newnode := True)
and continue inside it; else the word is a superset of an accepted word and
every remaining letter is skipped, leaving the trie unchanged. -/
def insertWord (t : Trie) (w : List Char) (newnode : Bool) : Trie :=
  match w, t with
  | [], _ => t
  | l :: rest, .node cs =>
    match lookupChild cs l with
    | some child => .node (updateChild cs l (insertWord child rest false))
    | none =>
      if !cs.isEmpty || newnode then
        .node (cs ++ [(l, insertWord (.node []) rest true)])
      else
        .node cs

/-- `c` is a lowercase letter (the `re.search('[^a-z]', word)` filter). -/
def isLowerAlpha (c : Char) : Bool := 'a' ≤ c && c ≤ 'z'

/-- One iteration of `buildTrie`'s line loop: skip words shorter than 4
letters and words with a non-lowercase character, insert the rest. -/
def addWord (t : Trie) (w : List Char) : Trie :=
  if w.length < 4 then t
  else if w.all isLowerAlpha then insertWord t w true
  else t

/-- `buildTrie`: fold the word stream into a trie, starting empty. -/
def buildTrie (ws : List (List Char)) : Trie :=
  ws.foldl addWord (.node [])

/-- `isPlayersMove( partialWord, playerGoesFirst)`. -/
def isPlayersMove (partialWord : List Char) (playerGoesFirst : Bool) : Bool :=
  (playerGoesFirst && (partialWord.length % 2 == 0))
    || (!playerGoesFirst && (partialWord.length % 2 == 1))

mutual
/-- `allWords( trie, partialWord)`: all words branching from this trie. -/
def allWords : Trie → List Char → List (List Char)
  | .node [], pw => [pw]
  | .node (lc :: cs), pw => allWordsL (lc :: cs) pw

/-- The `for l in trieLetters` loop of `allWords`, concatenating results. -/
def allWordsL : List (Char × Trie) → List Char → List (List Char)
  | [], _ => []
  | (l, c) :: rest, pw => allWords c (pw ++ [l]) ++ allWordsL rest pw
end

/-- Python string `<`: lexicographic on the character sequences, a strict
prefix compares smaller. -/
def strLt : List Char → List Char → Bool
  | [], [] => false
  | [], _ :: _ => true
  | _ :: _, [] => false
  | a :: as, b :: bs => if a < b then true else if b < a then false else strLt as bs

/-- The ranking key triple of `bestWords`: (count, shortest, alphaFirst). -/
abbrev RKey := Nat × Nat × List Char

/-- Python tuple `<` on the ranking key triples, lexicographic. -/
def keyLt (k1 k2 : RKey) : Bool :=
  if k1.1 < k2.1 then true
  else if k2.1 < k1.1 then false
  else if k1.2.1 < k2.2.1 then true
  else if k2.2.1 < k1.2.1 then false
  else strLt k1.2.2 k2.2.2

/-- `min( map( len, wordList))` on a nonempty list. -/
def minLen (w : List Char) (ws : List (List Char)) : Nat :=
  ws.foldl (fun m v => Nat.min m v.length) w.length

/-- `sorted( wordList)[0]` on a nonempty list: the lexicographically least
element (first occurrence; equal strings are identical so ties are moot). -/
def alphaFirst (w : List Char) (ws : List (List Char)) : List Char :=
  ws.foldl (fun m v => if strLt v m then v else m) w

/-- The sort keys `bestWords` computes for one child letter `l` of the node:
`none` models the `ValueError`/`IndexError` that `min`/`sorted(..)[0]` would
raise when `allWords` returned an empty list. -/
def childKey (pw : List Char) (lc : Char × Trie) : Option RKey :=
  match allWords lc.2 (pw ++ [lc.1]) with
  | [] => none
  | w :: ws => some ((w :: ws).length, minLen w ws, alphaFirst w ws)

/-- The key-precomputation loop of `bestWords`: pair every child with its
ranking key; `none` when some child's key computation raises. -/
def keyedChildren (pw : List Char) : List (Char × Trie) → Option (List ((Char × Trie) × RKey))
  | [] => some []
  | lc :: rest =>
    match childKey pw lc, keyedChildren pw rest with
    | some k, some ks => some ((lc, k) :: ks)
    | _, _ => none

/-- `sorted( trie, key=...)[0]` for a stable sort: the first element of the
list whose key is minimal under `keyLt`. -/
def pickBest (best : (Char × Trie) × RKey) : List ((Char × Trie) × RKey) → (Char × Trie) × RKey
  | [] => best
  | e :: rest => if keyLt e.2 best.2 then pickBest e rest else pickBest best rest

/-- `bestWords( trie, partialWord)`: return `{bestBranchLetter: subTrie}`,
the single child branch with the smallest (count, shortest, alphaFirst)
key; `none` models the exception raised on an empty node or empty word list. -/
def bestWords (t : Trie) (pw : List Char) : Option Trie :=
  match keyedChildren pw t.children with
  | none => none
  | some [] => none
  | some (e :: es) => some (.node [(pickBest e es).1])

/-- Python truthiness of a `winningMoves` result: `None` and the empty dict
are falsy, a non-empty dict is truthy. -/
def pyTruthy : Option Trie → Bool
  | none => false
  | some (.node []) => false
  | some (.node (_ :: _)) => true

mutual
/-- `winningMoves( trie, partialWord, playerGoesFirst)`: `none` is Python's
`None` (no forced win), `some t` is the pruned winning-continuation dict. -/
def winningMoves : Trie → List Char → Bool → Option Trie
  | .node cs, pw, pgf =>
    if isPlayersMove pw pgf then
      match playerLoop cs pw pgf with
      | [] => none
      | lc :: rest => bestWords (.node (lc :: rest)) pw
    else
      opponentLoop cs pw pgf []

/-- The player's-move loop: skip leaf children (losing end-of-words),
recurse on the rest, keep the letters whose recursive result is truthy. -/
def playerLoop : List (Char × Trie) → List Char → Bool → List (Char × Trie)
  | [], _, _ => []
  | (l, c) :: rest, pw, pgf =>
    match c with
    | .node [] => playerLoop rest pw pgf
    | .node (x :: xs) =>
      match winningMoves (.node (x :: xs)) (pw ++ [l]) pgf with
      | none => playerLoop rest pw pgf
      | some (.node []) => playerLoop rest pw pgf
      | some (.node (y :: ys)) => (l, .node (y :: ys)) :: playerLoop rest pw pgf

/-- The opponent's-move loop: keep leaf children unconditionally as wins,
recurse on the rest; a falsy recursive result aborts with `None`, otherwise
every branch is kept (`acc` is the dict built so far, in insertion order). -/
def opponentLoop : List (Char × Trie) → List Char → Bool → List (Char × Trie) → Option Trie
  | [], _, _, acc => some (.node acc)
  | (l, c) :: rest, pw, pgf, acc =>
    match c with
    | .node [] => opponentLoop rest pw pgf (acc ++ [(l, .node [])])
    | .node (x :: xs) =>
      match winningMoves (.node (x :: xs)) (pw ++ [l]) pgf with
      | none => none
      | some (.node []) => none
      | some (.node (y :: ys)) => opponentLoop rest pw pgf (acc ++ [(l, .node (y :: ys))])
end

/-- Python `sorted` for an ascending `Bool`-valued `le`: insertion sort. -/
def insertLe {α : Type} (le : α → α → Bool) (a : α) : List α → List α
  | [] => [a]
  | b :: bs => if le a b then a :: b :: bs else b :: insertLe le a bs

/-- Insertion sort by `le`. -/
def sortBy {α : Type} (le : α → α → Bool) : List α → List α
  | [] => []
  | a :: as => insertLe le a (sortBy le as)

/-- Python string `<=`, from `strLt`. -/
def strLe (a b : List Char) : Bool := !strLt b a

/-- `printWinners( trie, playerGoesFirst)` as data: for every root letter in
ascending order, `some ws` for the sorted winning-word list printed, `none`
for the "No winning words" line. -/
def report (t : Trie) (pgf : Bool) : List (Char × Option (List (List Char))) :=
  (sortBy (fun a b => a ≤ b) (t.children.map Prod.fst)).map (fun l =>
    let winningTrie := winningMoves ((lookupChild t.children l).getD (.node [])) [l] pgf
    (l, if pyTruthy winningTrie then
          some (sortBy strLe (allWords (winningTrie.getD (.node [])) [l]))
        else none))

/-- `main`: build the trie from the word stream, then produce the
player-goes-first report and the adversary-goes-first report. -/
def programOutput (ws : List (List Char)) :
    List (Char × Option (List (List Char))) × List (Char × Option (List (List Char))) :=
  let trie := buildTrie ws
  (report trie true, report trie false)

/-! ### Basic infrastructure: induction on tries, order lemmas -/

theorem sizeOf_snd_lt_of_mem {cs : List (Char × Trie)} {lc : Char × Trie}
    (h : lc ∈ cs) : sizeOf lc.2 < sizeOf (Trie.node cs) := by
  induction cs with
  | nil => cases h
  | cons hd tl ih =>
    obtain ⟨l, c⟩ := hd
    rcases List.mem_cons.mp h with rfl | hmem
    · simp only [Trie.node.sizeOf_spec, List.cons.sizeOf_spec, Prod.mk.sizeOf_spec]
      omega
    · have := ih hmem
      simp only [Trie.node.sizeOf_spec, List.cons.sizeOf_spec, Prod.mk.sizeOf_spec] at *
      omega

theorem Trie.inductionOn {motive : Trie → Prop}
    (h : ∀ cs : List (Char × Trie), (∀ lc ∈ cs, motive lc.2) → motive (.node cs)) :
    ∀ t, motive t
  | .node cs => h cs (fun lc hmem => Trie.inductionOn h lc.2)
termination_by t => sizeOf t
decreasing_by exact sizeOf_snd_lt_of_mem hmem

theorem strLt_irrefl (a : List Char) : strLt a a = false := by
  induction a with
  | nil => rfl
  | cons x xs ih => simp [strLt, ih]

theorem strLt_cons_iff {x y : Char} {xs ys : List Char} :
    strLt (x :: xs) (y :: ys) = true ↔ x < y ∨ (x = y ∧ strLt xs ys = true) := by
  simp only [strLt]
  rcases lt_trichotomy x y with h | rfl | h
  · simp [h]
  · simp [lt_irrefl]
  · simp [lt_asymm h, ne_of_gt h, h]

theorem strLt_trans {a b c : List Char} (h1 : strLt a b = true) (h2 : strLt b c = true) :
    strLt a c = true := by
  induction a generalizing b c with
  | nil =>
    cases c with
    | nil => cases b <;> simp [strLt] at h1 h2
    | cons z zs => simp [strLt]
  | cons x xs ih =>
    cases b with
    | nil => simp [strLt] at h1
    | cons y ys =>
      cases c with
      | nil => simp [strLt] at h2
      | cons z zs =>
        rw [strLt_cons_iff] at h1 h2 ⊢
        rcases h1 with hxy | ⟨rfl, s1⟩
        · rcases h2 with hyz | ⟨rfl, s2⟩
          · exact Or.inl (lt_trans hxy hyz)
          · exact Or.inl hxy
        · rcases h2 with hyz | ⟨rfl, s2⟩
          · exact Or.inl hyz
          · exact Or.inr ⟨rfl, ih s1 s2⟩

theorem strLt_eq_of_not (a b : List Char) (h1 : strLt a b = false) (h2 : strLt b a = false) :
    a = b := by
  induction a generalizing b with
  | nil => cases b with
    | nil => rfl
    | cons y ys => simp [strLt] at h1
  | cons x xs ih =>
    cases b with
    | nil => simp [strLt] at h2
    | cons y ys =>
      rw [Bool.eq_false_iff, Ne, strLt_cons_iff] at h1 h2
      push_neg at h1 h2
      rcases lt_trichotomy x y with hxy | rfl | hxy
      · exact absurd hxy (not_lt.mpr h1.1)
      · exact congrArg (x :: ·) (ih ys (Bool.eq_false_iff.mpr (h1.2 rfl))
          (Bool.eq_false_iff.mpr (h2.2 rfl)))
      · exact absurd hxy (not_lt.mpr h2.1)

theorem keyLt_iff (a b : RKey) : keyLt a b = true ↔
    a.1 < b.1 ∨ (a.1 = b.1 ∧ (a.2.1 < b.2.1 ∨ (a.2.1 = b.2.1 ∧ strLt a.2.2 b.2.2 = true))) := by
  rcases a with ⟨a1, a2, a3⟩; rcases b with ⟨b1, b2, b3⟩
  simp only [keyLt]
  rcases lt_trichotomy a1 b1 with h | rfl | h
  · simp [h]
  · rcases lt_trichotomy a2 b2 with h' | rfl | h'
    · simp [lt_irrefl, h']
    · simp [lt_irrefl]
    · simp [lt_irrefl, lt_asymm h', ne_of_gt h', h']
  · simp [lt_asymm h, ne_of_gt h, h]

theorem keyLt_irrefl (k : RKey) : keyLt k k = false := by
  simp [keyLt, strLt_irrefl]

theorem keyLt_trans {a b c : RKey} (h1 : keyLt a b = true) (h2 : keyLt b c = true) :
    keyLt a c = true := by
  rw [keyLt_iff] at h1 h2 ⊢
  rcases h1 with h1 | ⟨e1, h1⟩
  · rcases h2 with h2 | ⟨e2, _⟩
    · exact Or.inl (lt_trans h1 h2)
    · exact Or.inl (e2 ▸ h1)
  · rcases h2 with h2 | ⟨e2, h2⟩
    · exact Or.inl (e1 ▸ h2)
    · refine Or.inr ⟨e1.trans e2, ?_⟩
      rcases h1 with h1 | ⟨f1, h1⟩
      · rcases h2 with h2 | ⟨f2, _⟩
        · exact Or.inl (lt_trans h1 h2)
        · exact Or.inl (f2 ▸ h1)
      · rcases h2 with h2 | ⟨f2, h2⟩
        · exact Or.inl (f1 ▸ h2)
        · exact Or.inr ⟨f1.trans f2, strLt_trans h1 h2⟩

theorem keyLt_eq_of_not {a b : RKey} (h1 : keyLt a b = false) (h2 : keyLt b a = false) :
    a = b := by
  rw [Bool.eq_false_iff, Ne, keyLt_iff] at h1 h2
  push_neg at h1 h2
  rcases a with ⟨a1, a2, a3⟩; rcases b with ⟨b1, b2, b3⟩
  simp only at h1 h2
  have e1 : a1 = b1 := by omega
  subst e1
  have h1' := h1.2 rfl
  have h2' := h2.2 rfl
  have e2 : a2 = b2 := by omega
  subst e2
  have h1'' := h1'.2 rfl
  have h2'' := h2'.2 rfl
  rw [← Bool.eq_false_iff] at h1'' h2''
  rw [strLt_eq_of_not a3 b3 h1'' h2'']

/-! ### Lemmas about `allWords` -/

theorem allWords_leaf (pw : List Char) : allWords (.node []) pw = [pw] := rfl

theorem allWords_node_eq (cs : List (Char × Trie)) (pw : List Char) (h : cs ≠ []) :
    allWords (.node cs) pw = allWordsL cs pw := by
  cases cs with
  | nil => exact absurd rfl h
  | cons lc rest => rw [allWords]

theorem allWordsL_cons (lc : Char × Trie) (rest : List (Char × Trie)) (pw : List Char) :
    allWordsL (lc :: rest) pw = allWords lc.2 (pw ++ [lc.1]) ++ allWordsL rest pw := by
  obtain ⟨l, c⟩ := lc
  rw [allWordsL]

theorem mem_allWordsL_iff {cs : List (Char × Trie)} {pw w : List Char} :
    w ∈ allWordsL cs pw ↔ ∃ lc ∈ cs, w ∈ allWords lc.2 (pw ++ [lc.1]) := by
  induction cs with
  | nil => simp [allWordsL]
  | cons hd tl ih =>
    rw [allWordsL_cons, List.mem_append, ih]
    constructor
    · rintro (h | ⟨lc, hmem, hw⟩)
      · exact ⟨hd, List.mem_cons_self _ _, h⟩
      · exact ⟨lc, List.mem_cons_of_mem _ hmem, hw⟩
    · rintro ⟨lc, hmem, hw⟩
      rcases List.mem_cons.mp hmem with rfl | hmem
      · exact Or.inl hw
      · exact Or.inr ⟨lc, hmem, hw⟩

theorem allWords_ne_nil : ∀ (t : Trie) (pw : List Char), allWords t pw ≠ [] := by
  intro t
  induction t using Trie.inductionOn with
  | h cs ih =>
    intro pw
    cases cs with
    | nil => simp [allWords_leaf]
    | cons lc rest =>
      rw [allWords_node_eq _ _ (by simp), allWordsL_cons]
      have := ih lc (List.mem_cons_self _ _) (pw ++ [lc.1])
      exact fun hcon => this (List.append_eq_nil.mp hcon).1

theorem mem_allWords_append : ∀ (t : Trie) (pw w : List Char),
    w ∈ allWords t pw → ∃ s, w = pw ++ s := by
  intro t
  induction t using Trie.inductionOn with
  | h cs ih =>
    intro pw w hw
    cases cs with
    | nil =>
      rw [allWords_leaf, List.mem_singleton] at hw
      exact ⟨[], by simp [hw]⟩
    | cons lc rest =>
      rw [allWords_node_eq _ _ (by simp), mem_allWordsL_iff] at hw
      obtain ⟨lc', hmem, hw'⟩ := hw
      obtain ⟨s, rfl⟩ := ih lc' hmem (pw ++ [lc'.1]) w hw'
      exact ⟨lc'.1 :: s, by simp⟩

/-! ### Well-formedness: every node's keys are distinct -/

/-- Well-formed trie: at every node the letter keys are pairwise distinct
(automatic for a Python dict) — recursively. -/
inductive WF : Trie → Prop where
  | node : ∀ cs : List (Char × Trie), (cs.map Prod.fst).Nodup →
      (∀ lc ∈ cs, WF lc.2) → WF (.node cs)

theorem WF.nodupKeys {cs : List (Char × Trie)} (h : WF (.node cs)) :
    (cs.map Prod.fst).Nodup := by
  cases h with
  | node _ hn _ => exact hn

theorem WF.child {cs : List (Char × Trie)} (h : WF (.node cs)) :
    ∀ lc ∈ cs, WF lc.2 := by
  cases h with
  | node _ _ hc => exact hc

theorem lookupChild_eq_none {cs : List (Char × Trie)} {l : Char}
    (h : lookupChild cs l = none) : ∀ lc ∈ cs, lc.1 ≠ l := by
  induction cs with
  | nil => intro lc hmem; cases hmem
  | cons hd tl ih =>
    obtain ⟨k, c⟩ := hd
    rw [lookupChild] at h
    split at h
    · cases h
    · intro lc hmem
      rcases List.mem_cons.mp hmem with rfl | hmem
      · assumption
      · exact ih h lc hmem

theorem lookupChild_mem {cs : List (Char × Trie)} {l : Char} {c : Trie}
    (h : lookupChild cs l = some c) : (l, c) ∈ cs := by
  induction cs with
  | nil => cases h
  | cons hd tl ih =>
    obtain ⟨k, c'⟩ := hd
    rw [lookupChild] at h
    split at h
    · cases h
      subst_vars
      exact List.mem_cons_self _ _
    · exact List.mem_cons_of_mem _ (ih h)

theorem updateChild_map_fst (cs : List (Char × Trie)) (l : Char) (t : Trie) :
    (updateChild cs l t).map Prod.fst = cs.map Prod.fst := by
  induction cs with
  | nil => rfl
  | cons hd tl ih =>
    obtain ⟨k, c⟩ := hd
    rw [updateChild]
    split <;> simp [ih]

theorem mem_updateChild {cs : List (Char × Trie)} {l : Char} {t : Trie} {lc : Char × Trie}
    (h : lc ∈ updateChild cs l t) : lc ∈ cs ∨ lc = (l, t) := by
  induction cs with
  | nil => cases h
  | cons hd tl ih =>
    obtain ⟨k, c⟩ := hd
    rw [updateChild] at h
    split at h
    · rcases List.mem_cons.mp h with rfl | hmem
      · subst_vars
        exact Or.inr rfl
      · exact Or.inl (List.mem_cons_of_mem _ hmem)
    · rcases List.mem_cons.mp h with rfl | hmem
      · exact Or.inl (List.mem_cons_self _ _)
      · rcases ih hmem with h' | h'
        · exact Or.inl (List.mem_cons_of_mem _ h')
        · exact Or.inr h'

theorem updateChild_self {cs : List (Char × Trie)} {l : Char} {c : Trie}
    (h : lookupChild cs l = some c) : updateChild cs l c = cs := by
  induction cs with
  | nil => rfl
  | cons hd tl ih =>
    obtain ⟨k, c'⟩ := hd
    rw [lookupChild] at h
    rw [updateChild]
    split at h
    · cases h
      simp_all
    · simp_all [ih h]

theorem WF_leaf : WF (.node []) := WF.node [] (by simp) (by simp)

theorem WF_insertWord : ∀ (w : List Char) (t : Trie) (nn : Bool), WF t →
    WF (insertWord t w nn) := by
  intro w
  induction w with
  | nil =>
    intro t nn h
    obtain ⟨cs⟩ := t
    rw [insertWord]
    exact h
  | cons l rest ih =>
    intro t nn h
    obtain ⟨cs⟩ := t
    rw [insertWord]
    cases hl : lookupChild cs l with
    | some child =>
      simp only
      refine WF.node _ ?_ ?_
      · rw [updateChild_map_fst]; exact h.nodupKeys
      · intro lc hmem
        rcases mem_updateChild hmem with h' | h'
        · exact h.child lc h'
        · subst h'
          exact ih child false (h.child _ (lookupChild_mem hl))
    | none =>
      simp only
      split
      · refine WF.node _ ?_ ?_
        · rw [List.map_append]
          simp only [List.map_cons, List.map_nil]
          rw [List.nodup_append]
          refine ⟨h.nodupKeys, List.nodup_singleton _, ?_⟩
          intro a ha hb
          rw [List.mem_singleton] at hb
          subst hb
          obtain ⟨lc, hlc, rfl⟩ := List.mem_map.mp ha
          exact lookupChild_eq_none hl lc hlc rfl
        · intro lc hmem
          rcases List.mem_append.mp hmem with h' | h'
          · exact h.child lc h'
          · rw [List.mem_singleton] at h'
            subst h'
            exact ih _ true WF_leaf
      · exact h

theorem WF_addWord (t : Trie) (w : List Char) (h : WF t) : WF (addWord t w) := by
  rw [addWord]
  split
  · exact h
  · split
    · exact WF_insertWord w t true h
    · exact h

theorem WF_buildTrie (ws : List (List Char)) : WF (buildTrie ws) := by
  rw [buildTrie]
  suffices h : ∀ t, WF t → WF (ws.foldl addWord t) from h _ WF_leaf
  induction ws with
  | nil => intro t h; exact h
  | cons w rest ih =>
    intro t h
    rw [List.foldl_cons]
    exact ih _ (WF_addWord t w h)

/-! ### No enumerated word is a strict prefix of another (well-formed tries) -/

theorem nodup_assoc_eq {cs : List (Char × Trie)} (hn : (cs.map Prod.fst).Nodup)
    {l : Char} {c1 c2 : Trie} (h1 : (l, c1) ∈ cs) (h2 : (l, c2) ∈ cs) : c1 = c2 := by
  induction cs with
  | nil => cases h1
  | cons hd tl ih =>
    obtain ⟨k, c⟩ := hd
    rw [List.map_cons, List.nodup_cons] at hn
    rcases List.mem_cons.mp h1 with e1 | m1 <;> rcases List.mem_cons.mp h2 with e2 | m2
    · cases e1; cases e2; rfl
    · cases e1
      exact absurd (List.mem_map.mpr ⟨_, m2, rfl⟩) hn.1
    · cases e2
      exact absurd (List.mem_map.mpr ⟨_, m1, rfl⟩) hn.1
    · exact ih hn.2 m1 m2

theorem allWords_no_strict_prefix : ∀ (t : Trie), WF t → ∀ (pw u v : List Char),
    u ∈ allWords t pw → v ∈ allWords t pw → u <+: v → u = v := by
  intro t
  induction t using Trie.inductionOn with
  | h cs ih =>
    intro hwf pw u v hu hv hpre
    cases cs with
    | nil =>
      rw [allWords_leaf, List.mem_singleton] at hu hv
      rw [hu, hv]
    | cons lc rest =>
      rw [allWords_node_eq _ _ (by simp), mem_allWordsL_iff] at hu hv
      obtain ⟨⟨l1, c1⟩, hm1, hu'⟩ := hu
      obtain ⟨⟨l2, c2⟩, hm2, hv'⟩ := hv
      obtain ⟨s1, rfl⟩ := mem_allWords_append _ _ _ hu'
      obtain ⟨s2, rfl⟩ := mem_allWords_append _ _ _ hv'
      have hl : l1 = l2 := by
        have h1 : pw ++ (l1 :: s1) <+: pw ++ (l2 :: s2) := by
          simpa using hpre
        have h2 := (List.prefix_append_right_inj pw).mp h1
        exact (List.cons_prefix_cons.mp h2).1
      subst hl
      have hc : c1 = c2 := nodup_assoc_eq hwf.nodupKeys hm1 hm2
      subst hc
      exact ih _ hm1 (hwf.child _ hm1) (pw ++ [l1]) _ _ hu' hv' hpre

/-! ### Path following and the superset-rejection lemma -/

/-- Follow a path of letters down from `t`: `some u` is the subtrie reached,
`none` when some letter on the path is absent.  `pathTo t p = some (.node [])`
says exactly that `p` is an accepted word of the trie (a leaf ends its path). -/
def pathTo (t : Trie) : List Char → Option Trie
  | [] => some t
  | l :: rest =>
    match lookupChild t.children l with
    | some c => pathTo c rest
    | none => none

theorem insertWord_skip : ∀ (p : List Char) (t : Trie) (rest : List Char),
    pathTo t p = some (.node []) → insertWord t (p ++ rest) false = t := by
  intro p
  induction p with
  | nil =>
    intro t rest h
    rw [pathTo] at h
    cases h
    simp only [List.nil_append]
    cases rest with
    | nil => rw [insertWord]
    | cons r rs => simp [insertWord, lookupChild, List.isEmpty]
  | cons l p' ih =>
    intro t rest h
    obtain ⟨cs⟩ := t
    rw [pathTo] at h
    simp only [Trie.children] at h
    cases hl : lookupChild cs l with
    | none => rw [hl] at h; cases h
    | some c =>
      rw [hl] at h
      rw [List.cons_append, insertWord]
      simp only [hl]
      rw [ih c rest h, updateChild_self hl]

/-- Ascending Python string order on the input word stream. -/
def sortedAsc : List (List Char) → Bool
  | [] => true
  | [_] => true
  | a :: b :: rest => strLe a b && sortedAsc (b :: rest)

/-! ### Characterizing the two branches of `winningMoves` -/

/-- What the player's-move loop keeps for one child: nothing for a leaf
(losing end-of-word) or a falsy recursive result, otherwise the letter with
its recursive winning subtree. -/
def playerKeep (pw : List Char) (pgf : Bool) (lc : Char × Trie) : Option (Char × Trie) :=
  if lc.2.isLeaf then none
  else
    match winningMoves lc.2 (pw ++ [lc.1]) pgf with
    | none => none
    | some u => if u.isLeaf then none else some (lc.1, u)

/-- What the opponent's-move loop stores for one child when it does not
abort: a fresh leaf for a leaf child, else the recursive winning subtree. -/
def oppKeep (pw : List Char) (pgf : Bool) (lc : Char × Trie) : Char × Trie :=
  (lc.1, if lc.2.isLeaf then .node []
         else (winningMoves lc.2 (pw ++ [lc.1]) pgf).getD (.node []))

theorem isLeaf_node_nil : (Trie.node []).isLeaf = true := rfl

theorem isLeaf_node_cons (x : Char × Trie) (xs : List (Char × Trie)) :
    (Trie.node (x :: xs)).isLeaf = false := rfl

theorem winningMoves_player (cs : List (Char × Trie)) (pw : List Char) (pgf : Bool)
    (h : isPlayersMove pw pgf = true) :
    winningMoves (.node cs) pw pgf =
      match playerLoop cs pw pgf with
      | [] => none
      | lc :: rest => bestWords (.node (lc :: rest)) pw := by
  rw [winningMoves, if_pos h]

theorem winningMoves_opponent (cs : List (Char × Trie)) (pw : List Char) (pgf : Bool)
    (h : isPlayersMove pw pgf = false) :
    winningMoves (.node cs) pw pgf = opponentLoop cs pw pgf [] := by
  rw [winningMoves, if_neg (by simp [h])]

theorem playerLoop_eq_filterMap (cs : List (Char × Trie)) (pw : List Char) (pgf : Bool) :
    playerLoop cs pw pgf = cs.filterMap (playerKeep pw pgf) := by
  induction cs with
  | nil => rfl
  | cons hd tl ih =>
    obtain ⟨l, c⟩ := hd
    obtain ⟨ccs⟩ := c
    cases ccs with
    | nil =>
      rw [playerLoop, List.filterMap_cons]
      simp only [playerKeep, isLeaf_node_nil, if_true]
      exact ih
    | cons x xs =>
      rw [playerLoop, List.filterMap_cons]
      simp only [playerKeep, isLeaf_node_cons, Bool.false_eq_true, if_false]
      cases hw : winningMoves (.node (x :: xs)) (pw ++ [l]) pgf with
      | none => simpa using ih
      | some u =>
        obtain ⟨ucs⟩ := u
        cases ucs with
        | nil => simpa [isLeaf_node_nil] using ih
        | cons y ys => simpa [isLeaf_node_cons] using congrArg ((l, Trie.node (y :: ys)) :: ·) ih

theorem playerLoop_filter_leaves (cs : List (Char × Trie)) (pw : List Char) (pgf : Bool) :
    playerLoop cs pw pgf = playerLoop (cs.filter (fun lc => !lc.2.isLeaf)) pw pgf := by
  rw [playerLoop_eq_filterMap, playerLoop_eq_filterMap]
  induction cs with
  | nil => rfl
  | cons hd tl ih =>
    by_cases hp : hd.2.isLeaf = true
    · rw [List.filter_cons, List.filterMap_cons]
      simp only [hp, Bool.not_true, if_false]
      rw [show playerKeep pw pgf hd = none from by simp [playerKeep, hp]]
      simpa using ih
    · rw [List.filter_cons, List.filterMap_cons]
      simp only [Bool.eq_false_iff.mpr hp, Bool.not_false, if_true, List.filterMap_cons]
      rw [ih]

theorem playerLoop_nil_of_all_none (cs : List (Char × Trie)) (pw : List Char) (pgf : Bool)
    (h : ∀ lc ∈ cs, lc.2.isLeaf = false → winningMoves lc.2 (pw ++ [lc.1]) pgf = none) :
    playerLoop cs pw pgf = [] := by
  rw [playerLoop_eq_filterMap]
  induction cs with
  | nil => rfl
  | cons hd tl ih =>
    rw [List.filterMap_cons]
    have htl := ih (fun lc hm => h lc (List.mem_cons_of_mem _ hm))
    by_cases hp : hd.2.isLeaf = true
    · simp [playerKeep, hp, htl]
    · have hn := h hd (List.mem_cons_self _ _) (Bool.eq_false_iff.mpr hp)
      simp [playerKeep, hp, hn, htl]

theorem playerLoop_ne_nil_of_truthy (cs : List (Char × Trie)) (pw : List Char) (pgf : Bool)
    (h : ∃ lc ∈ cs, lc.2.isLeaf = false ∧
        pyTruthy (winningMoves lc.2 (pw ++ [lc.1]) pgf) = true) :
    playerLoop cs pw pgf ≠ [] := by
  rw [playerLoop_eq_filterMap]
  obtain ⟨lc, hmem, hleaf, htr⟩ := h
  intro hcon
  have : playerKeep pw pgf lc = none := by
    exact List.filterMap_eq_nil_iff.mp hcon lc hmem
  rw [playerKeep] at this
  rw [hleaf] at this
  simp only [Bool.false_eq_true, if_false] at this
  cases hw : winningMoves lc.2 (pw ++ [lc.1]) pgf with
  | none => rw [hw] at htr; simp [pyTruthy] at htr
  | some u =>
    obtain ⟨ucs⟩ := u
    cases ucs with
    | nil => rw [hw] at htr; simp [pyTruthy] at htr
    | cons y ys => rw [hw] at this; simp [isLeaf_node_cons] at this

theorem opponentLoop_all_ok (cs : List (Char × Trie)) (pw : List Char) (pgf : Bool)
    (h : ∀ lc ∈ cs, lc.2.isLeaf = true ∨
        pyTruthy (winningMoves lc.2 (pw ++ [lc.1]) pgf) = true) :
    ∀ acc, opponentLoop cs pw pgf acc = some (.node (acc ++ cs.map (oppKeep pw pgf))) := by
  induction cs with
  | nil => intro acc; rw [opponentLoop]; simp
  | cons hd tl ih =>
    intro acc
    obtain ⟨l, c⟩ := hd
    obtain ⟨ccs⟩ := c
    have htl := ih (fun lc hm => h lc (List.mem_cons_of_mem _ hm))
    cases ccs with
    | nil =>
      rw [opponentLoop, htl]
      simp [oppKeep, isLeaf_node_nil]
    | cons x xs =>
      have hhd := h _ (List.mem_cons_self _ _)
      rcases hhd with hl | htr
      · rw [isLeaf_node_cons] at hl; cases hl
      · rw [opponentLoop]
        cases hw : winningMoves (.node (x :: xs)) (pw ++ [l]) pgf with
        | none => rw [hw] at htr; simp [pyTruthy] at htr
        | some u =>
          obtain ⟨ucs⟩ := u
          cases ucs with
          | nil => rw [hw] at htr; simp [pyTruthy] at htr
          | cons y ys =>
            simp [htl, oppKeep, isLeaf_node_cons, hw]

theorem opponentLoop_fail (cs : List (Char × Trie)) (pw : List Char) (pgf : Bool)
    (h : ∃ lc ∈ cs, lc.2.isLeaf = false ∧
        pyTruthy (winningMoves lc.2 (pw ++ [lc.1]) pgf) = false) :
    ∀ acc, opponentLoop cs pw pgf acc = none := by
  induction cs with
  | nil => obtain ⟨lc, hmem, _⟩ := h; cases hmem
  | cons hd tl ih =>
    intro acc
    obtain ⟨l, c⟩ := hd
    obtain ⟨ccs⟩ := c
    cases ccs with
    | nil =>
      rw [opponentLoop]
      obtain ⟨lc, hmem, hleaf, hfal⟩ := h
      rcases List.mem_cons.mp hmem with rfl | hmem'
      · rw [isLeaf_node_nil] at hleaf; cases hleaf
      · exact ih ⟨lc, hmem', hleaf, hfal⟩ _
    | cons x xs =>
      rw [opponentLoop]
      cases hw : winningMoves (.node (x :: xs)) (pw ++ [l]) pgf with
      | none => simp
      | some u =>
        obtain ⟨ucs⟩ := u
        cases ucs with
        | nil => simp
        | cons y ys =>
          simp only
          obtain ⟨lc, hmem, hleaf, hfal⟩ := h
          rcases List.mem_cons.mp hmem with rfl | hmem'
          · rw [hw] at hfal; simp [pyTruthy] at hfal
          · exact ih ⟨lc, hmem', hleaf, hfal⟩ _

/-! ### Totality of the Branch Ranker on nonempty candidate nodes -/

/-- The ranking key the Python code computes for child `lc` (total, since
`allWords` never returns an empty list). -/
def theKey (pw : List Char) (lc : Char × Trie) : RKey :=
  (childKey pw lc).getD (0, 0, [])

theorem childKey_isSome (pw : List Char) (lc : Char × Trie) :
    (childKey pw lc).isSome = true := by
  rw [childKey]
  cases h : allWords lc.2 (pw ++ [lc.1]) with
  | nil => exact absurd h (allWords_ne_nil _ _)
  | cons w ws => simp

theorem keyedChildren_eq (pw : List Char) (cs : List (Char × Trie)) :
    keyedChildren pw cs = some (cs.map (fun lc => (lc, theKey pw lc))) := by
  induction cs with
  | nil => rfl
  | cons hd tl ih =>
    rw [keyedChildren, ih]
    obtain ⟨k, hk⟩ := Option.isSome_iff_exists.mp (childKey_isSome pw hd)
    rw [hk]
    simp [theKey, hk]

theorem bestWords_cons_eq (lc : Char × Trie) (rest : List (Char × Trie)) (pw : List Char) :
    bestWords (.node (lc :: rest)) pw =
      some (.node [(pickBest (lc, theKey pw lc)
        (rest.map (fun lc' => (lc', theKey pw lc')))).1]) := by
  rw [bestWords]
  simp only [Trie.children]
  rw [keyedChildren_eq]
  simp

theorem bestWords_isSome (cs : List (Char × Trie)) (pw : List Char) (h : cs ≠ []) :
    (bestWords (.node cs) pw).isSome = true := by
  cases cs with
  | nil => exact absurd rfl h
  | cons lc rest => rw [bestWords_cons_eq]; rfl

/-! ### Claim theorems -/

/-- C1 counterexample: on the single-word dictionary ["ball"], the claim's
stated outputs are wrong: playerGoesFirst=true does NOT report
"no winning words" and playerGoesFirst=false does NOT report ["ball"]. -/
theorem ballDict_reports_counterexample :
    ¬ (report (buildTrie [['b','a','l','l']]) true = [('b', none)] ∧
       report (buildTrie [['b','a','l','l']]) false = [('b', some [['b','a','l','l']])]) := by
  decide

/-- C1 (amended): for the single-word dictionary ["ball"], solving root
letter 'b' with playerGoesFirst=true reports the word list ["ball"] (the
opponent, who plays the 2nd and 4th letters, is forced to complete `ball`),
and with playerGoesFirst=false reports "no winning words" (the designated
player is the one forced to complete it). -/
theorem ballDict_reports :
    report (buildTrie [['b','a','l','l']]) true = [('b', some [['b','a','l','l']])] ∧
    report (buildTrie [['b','a','l','l']]) false = [('b', none)] := by
  decide

/-- C2: for every partial word `w` and flag `playerGoesFirst`, the move at
`w` belongs to the designated player exactly when (playerGoesFirst and
len(w) is even) or (not playerGoesFirst and len(w) is odd); in every other
case (the iff's negation) it is the opponent's move. -/
theorem isPlayersMove_spec (w : List Char) (pgf : Bool) :
    isPlayersMove w pgf = true ↔
      ((pgf = true ∧ Even w.length) ∨ (pgf = false ∧ Odd w.length)) := by
  rw [isPlayersMove]
  cases pgf <;> simp [Nat.even_iff, Nat.odd_iff]

/-- C3: a word with an earlier-accepted shorter word as a strict prefix is
silently rejected, inserting none of its remaining letters (the trie is
returned unchanged); in particular building from the sorted dictionary
["cart", "cartoon"] yields a trie whose enumeration is exactly ["cart"]. -/
theorem superset_rejected_and_scenarioA :
    (∀ (t : Trie) (p w : List Char), p ≠ [] → p <+: w → p ≠ w →
        pathTo t p = some (.node []) → insertWord t w true = t)
    ∧ allWords (buildTrie [['c','a','r','t'], ['c','a','r','t','o','o','n']]) [] =
        [['c','a','r','t']] := by
  constructor
  · intro t p w hp hpre _hne hleaf
    obtain ⟨rest, rfl⟩ := hpre
    cases p with
    | nil => exact absurd rfl hp
    | cons l p' =>
      obtain ⟨cs⟩ := t
      rw [pathTo] at hleaf
      simp only [Trie.children] at hleaf
      cases hl : lookupChild cs l with
      | none => rw [hl] at hleaf; cases hleaf
      | some c =>
        rw [hl] at hleaf
        rw [List.cons_append, insertWord]
        simp only [hl]
        rw [insertWord_skip p' c rest hleaf, updateChild_self hl]
  · decide

/-- C3 witness: concrete instance of the general rejection statement — the
trie accepting exactly "cart" rejects "cartoon" unchanged, and the
scenario-A enumeration. -/
theorem superset_rejected_and_scenarioA_witness :
    insertWord (buildTrie [['c','a','r','t']]) ['c','a','r','t','o','o','n'] true =
      buildTrie [['c','a','r','t']] :=
  superset_rejected_and_scenarioA.1 (buildTrie [['c','a','r','t']])
    ['c','a','r','t'] ['c','a','r','t','o','o','n'] (by decide)
    ⟨['o','o','n'], by decide⟩ (by decide) rfl

/-- C4: for every input stream of lowercase words of length ≥ 4 in ascending
sorted order, no two words enumerated from the trie built by `buildTrie`
have one a strict prefix of the other (prefix implies equality). -/
theorem buildTrie_no_strict_prefix (ws : List (List Char))
    (_hsort : sortedAsc ws = true)
    (_hwords : ∀ w ∈ ws, 4 ≤ w.length ∧ w.all isLowerAlpha = true) :
    ∀ u ∈ allWords (buildTrie ws) [], ∀ v ∈ allWords (buildTrie ws) [],
      u <+: v → u = v := by
  intro u hu v hv hpre
  exact allWords_no_strict_prefix _ (WF_buildTrie ws) [] u v hu hv hpre

/-- C4 witness: the hypotheses hold for the concrete sorted dictionary
["ball", "cart"] and the conclusion is obtained from the theorem there. -/
theorem buildTrie_no_strict_prefix_witness :
    sortedAsc [['b','a','l','l'], ['c','a','r','t']] = true ∧
    (∀ u ∈ allWords (buildTrie [['b','a','l','l'], ['c','a','r','t']]) [],
      ∀ v ∈ allWords (buildTrie [['b','a','l','l'], ['c','a','r','t']]) [],
        u <+: v → u = v) :=
  ⟨by decide, buildTrie_no_strict_prefix _ (by decide) (by decide)⟩

/-- C5: at a node where it is the opponent's move: if the recursive solve of
any non-leaf child returns NO_WIN, the whole call returns NO_WIN; and if no
child's solve is falsy, the call returns WIN with a node keeping every
child's subtree in order — a leaf child kept unconditionally as a fresh
empty win node, a non-leaf child with its recursive winning subtree. -/
theorem winningMoves_opponent_spec (cs : List (Char × Trie)) (pw : List Char) (pgf : Bool)
    (hmove : isPlayersMove pw pgf = false) :
    ((∃ lc ∈ cs, lc.2.isLeaf = false ∧ winningMoves lc.2 (pw ++ [lc.1]) pgf = none) →
      winningMoves (.node cs) pw pgf = none)
    ∧ ((∀ lc ∈ cs, lc.2.isLeaf = false →
          pyTruthy (winningMoves lc.2 (pw ++ [lc.1]) pgf) = true) →
      winningMoves (.node cs) pw pgf = some (.node (cs.map (oppKeep pw pgf)))) := by
  constructor
  · intro h
    obtain ⟨lc, hmem, hleaf, hnone⟩ := h
    rw [winningMoves_opponent cs pw pgf hmove]
    exact opponentLoop_fail cs pw pgf ⟨lc, hmem, hleaf, by rw [hnone]; rfl⟩ []
  · intro h
    rw [winningMoves_opponent cs pw pgf hmove]
    rw [opponentLoop_all_ok cs pw pgf ?_ []]
    · rw [List.nil_append]
    · intro lc hmem
      by_cases hl : lc.2.isLeaf = true
      · exact Or.inl hl
      · exact Or.inr (h lc hmem (Bool.eq_false_iff.mpr hl))

/-- C5 witness: a concrete opponent-move node (partial word length 1 with
playerGoesFirst=true) with one leaf child and one solvable non-leaf child;
both hypotheses are discharged and the conclusion evaluated. -/
theorem winningMoves_opponent_spec_witness :
    isPlayersMove ['x'] true = false ∧
    winningMoves
        (.node [('a', .node []), ('b', .node [('c', .node [('d', .node [])])])]) ['x'] true =
      some (.node ([('a', .node []), ('b', .node [('c', .node [('d', .node [])])])].map
        (oppKeep ['x'] true))) :=
  ⟨rfl, (winningMoves_opponent_spec
    [('a', .node []), ('b', .node [('c', .node [('d', .node [])])])] ['x'] true rfl).2
    (by decide)⟩

/-- C6: at a node where it is the designated player's move: leaf children
are excluded from the candidate set (filtering them out of the loop changes
nothing); if no non-leaf child's recursive solve yields WIN the call
returns NO_WIN; otherwise the call returns the Branch Ranker's result on
the candidate set, which is WIN of a node with exactly one (letter,
subtree) pair. -/
theorem winningMoves_player_spec (cs : List (Char × Trie)) (pw : List Char) (pgf : Bool)
    (hmove : isPlayersMove pw pgf = true) :
    (playerLoop cs pw pgf = playerLoop (cs.filter (fun lc => !lc.2.isLeaf)) pw pgf)
    ∧ ((∀ lc ∈ cs, lc.2.isLeaf = false → winningMoves lc.2 (pw ++ [lc.1]) pgf = none) →
        winningMoves (.node cs) pw pgf = none)
    ∧ ((∃ lc ∈ cs, lc.2.isLeaf = false ∧
          pyTruthy (winningMoves lc.2 (pw ++ [lc.1]) pgf) = true) →
        winningMoves (.node cs) pw pgf = bestWords (.node (playerLoop cs pw pgf)) pw
        ∧ ∃ l c, winningMoves (.node cs) pw pgf = some (.node [(l, c)])) := by
  refine ⟨playerLoop_filter_leaves cs pw pgf, ?_, ?_⟩
  · intro h
    rw [winningMoves_player cs pw pgf hmove, playerLoop_nil_of_all_none cs pw pgf h]
  · intro h
    have hne := playerLoop_ne_nil_of_truthy cs pw pgf h
    cases hpl : playerLoop cs pw pgf with
    | nil => exact absurd hpl hne
    | cons lc rest =>
      have heq : winningMoves (.node cs) pw pgf = bestWords (.node (lc :: rest)) pw := by
        rw [winningMoves_player cs pw pgf hmove, hpl]
      refine ⟨heq, ?_⟩
      rw [heq, bestWords_cons_eq]
      exact ⟨_, _, rfl⟩

/-- C6 witness: a concrete player-move node (partial word length 2 with
playerGoesFirst=true) with a leaf child, a child whose solve loses, and two
children whose solves win; hypotheses discharged, conclusions evaluated. -/
theorem winningMoves_player_spec_witness :
    isPlayersMove ['x', 'y'] true = true ∧
    (∃ lc ∈ [('a', Trie.node []), ('b', Trie.node [('c', Trie.node [])])],
      lc.2.isLeaf = false ∧
        pyTruthy (winningMoves lc.2 (['x', 'y'] ++ [lc.1]) true) = true) ∧
    (winningMoves (.node [('a', Trie.node []), ('b', Trie.node [('c', Trie.node [])])])
        ['x', 'y'] true =
      bestWords (.node (playerLoop [('a', Trie.node []), ('b', Trie.node [('c', Trie.node [])])]
        ['x', 'y'] true)) ['x', 'y']) ∧
    (∃ l c, winningMoves (.node [('a', Trie.node []), ('b', Trie.node [('c', Trie.node [])])])
        ['x', 'y'] true = some (.node [(l, c)])) :=
  ⟨rfl, by decide,
    ((winningMoves_player_spec [('a', Trie.node []), ('b', Trie.node [('c', Trie.node [])])]
      ['x', 'y'] true rfl).2.2 (by decide)).1,
    ((winningMoves_player_spec [('a', Trie.node []), ('b', Trie.node [('c', Trie.node [])])]
      ['x', 'y'] true rfl).2.2 (by decide)).2⟩

/-- `keyLt` is total: of two distinct keys one is strictly smaller. -/
theorem keyLt_total {a b : RKey} (h : keyLt a b = false) : keyLt b a = true ∨ b = a := by
  cases hc : keyLt b a with
  | true => exact Or.inl rfl
  | false => exact Or.inr (keyLt_eq_of_not hc h)

/-- `pickBest` returns the first element of `e0 :: es` whose key is minimal
under `keyLt`: elements before it are strictly greater, no element is
strictly smaller. -/
theorem pickBest_first_min :
    ∀ (es : List ((Char × Trie) × RKey)) (e0 : (Char × Trie) × RKey),
    ∃ pre post, e0 :: es = pre ++ (pickBest e0 es) :: post
      ∧ (∀ e ∈ pre, keyLt (pickBest e0 es).2 e.2 = true)
      ∧ (∀ e ∈ e0 :: es, keyLt e.2 (pickBest e0 es).2 = false) := by
  intro es
  induction es with
  | nil =>
    intro e0
    refine ⟨[], [], rfl, by simp, ?_⟩
    intro e hmem
    rw [List.mem_singleton] at hmem
    subst hmem
    exact keyLt_irrefl _
  | cons e1 tl ih =>
    intro e0
    rw [pickBest]
    by_cases hk : keyLt e1.2 e0.2 = true
    · rw [if_pos hk]
      obtain ⟨pre, post, hdec, hpre, hmin⟩ := ih e1
      have hmin_e1 : keyLt e1.2 (pickBest e1 tl).2 = false := hmin e1 (List.mem_cons_self _ _)
      have hr_lt_e0 : keyLt (pickBest e1 tl).2 e0.2 = true := by
        rcases keyLt_total hmin_e1 with h' | h'
        · exact keyLt_trans h' hk
        · rw [h']; exact hk
      refine ⟨e0 :: pre, post, ?_, ?_, ?_⟩
      · rw [List.cons_append, ← hdec]
      · intro e hmem
        rcases List.mem_cons.mp hmem with rfl | hmem'
        · exact hr_lt_e0
        · exact hpre e hmem'
      · intro e hmem
        rcases List.mem_cons.mp hmem with rfl | hmem'
        · cases he : keyLt e.2 (pickBest e1 tl).2 with
          | false => rfl
          | true =>
            have : keyLt e1.2 (pickBest e1 tl).2 = true := keyLt_trans hk he
            rw [this] at hmin_e1
            cases hmin_e1
        · exact hmin e hmem'
    · rw [if_neg hk]
      have hk' : keyLt e1.2 e0.2 = false := Bool.eq_false_iff.mpr hk
      obtain ⟨pre, post, hdec, hpre, hmin⟩ := ih e0
      cases pre with
      | nil =>
        rw [List.nil_append] at hdec
        have he0 : e0 = pickBest e0 tl := (List.cons.injEq _ _ _ _).mp hdec |>.1
        have hpost : tl = post := (List.cons.injEq _ _ _ _).mp hdec |>.2
        refine ⟨[], e1 :: tl, ?_, by simp, ?_⟩
        · rw [List.nil_append, ← he0]
        · intro e hmem
          rcases List.mem_cons.mp hmem with rfl | hmem'
          · rw [← he0]; exact keyLt_irrefl _
          · rcases List.mem_cons.mp hmem' with rfl | hmem''
            · rw [← he0]; exact hk'
            · exact hmin e (List.mem_cons_of_mem _ hmem'')
      | cons p ps =>
        rw [List.cons_append] at hdec
        have hp : e0 = p := ((List.cons.injEq _ _ _ _).mp hdec).1
        have htl : tl = ps ++ (pickBest e0 tl) :: post := ((List.cons.injEq _ _ _ _).mp hdec).2
        subst hp
        have hr_lt_e0 : keyLt (pickBest e0 tl).2 e0.2 = true :=
          hpre e0 (List.mem_cons_self _ _)
        have hr_lt_e1 : keyLt (pickBest e0 tl).2 e1.2 = true := by
          rcases keyLt_total hk' with h' | h'
          · exact keyLt_trans hr_lt_e0 h'
          · rw [← h']; exact hr_lt_e0
        refine ⟨e0 :: e1 :: ps, post, ?_, ?_, ?_⟩
        · rw [List.cons_append, List.cons_append, ← htl]
        · intro e hmem
          rcases List.mem_cons.mp hmem with rfl | hmem'
          · exact hr_lt_e0
          · rcases List.mem_cons.mp hmem' with rfl | hmem''
            · exact hr_lt_e1
            · exact hpre e (List.mem_cons_of_mem _ hmem'')
        · intro e hmem
          rcases List.mem_cons.mp hmem with rfl | hmem'
          · exact hmin e (List.mem_cons_self _ _)
          · rcases List.mem_cons.mp hmem' with rfl | hmem''
            · cases he : keyLt e.2 (pickBest e0 tl).2 with
              | false => rfl
              | true =>
                have h0 : keyLt e.2 e0.2 = true := keyLt_trans he hr_lt_e0
                rw [h0] at hk'
                cases hk'
            · exact hmin e (List.mem_cons_of_mem _ hmem'')

/-- The node's letter keys are strictly ascending (the iteration order a
Python dict has after sorted-order insertion). -/
def keysAsc : List (Char × Trie) → Bool
  | [] => true
  | [_] => true
  | a :: b :: rest => decide (a.1 < b.1) && keysAsc (b :: rest)

theorem keysAsc_pairwise : ∀ {cs : List (Char × Trie)}, keysAsc cs = true →
    List.Pairwise (fun a b : Char × Trie => a.1 < b.1) cs := by
  intro cs
  induction cs with
  | nil => intro _; exact List.Pairwise.nil
  | cons a tl ih =>
    cases tl with
    | nil => intro _; simp
    | cons b rest =>
      intro h
      rw [keysAsc, Bool.and_eq_true, decide_eq_true_iff] at h
      obtain ⟨hab, h'⟩ := h
      have hp := ih h'
      rw [List.pairwise_cons]
      refine ⟨?_, hp⟩
      intro y hy
      rcases List.mem_cons.mp hy with rfl | hy'
      · exact hab
      · exact lt_trans hab ((List.pairwise_cons.mp hp).1 y hy')

/-- C7: on a candidate node with at least one child whose letters ascend
alphabetically (as a trie built from ascending-sorted input has), the
Branch Ranker returns the singleton child whose (count, shortest,
alphaFirst) key triple is minimal under the lexicographic order `keyLt`,
and among letters tying on the whole triple it picks the alphabetically
first. -/
theorem bestWords_spec (cs : List (Char × Trie)) (pw : List Char)
    (hne : cs ≠ []) (hasc : keysAsc cs = true) :
    ∃ lc ∈ cs, bestWords (.node cs) pw = some (.node [lc])
      ∧ (∀ lc' ∈ cs, keyLt (theKey pw lc') (theKey pw lc) = false)
      ∧ (∀ lc' ∈ cs, theKey pw lc' = theKey pw lc → lc.1 ≤ lc'.1) := by
  cases cs with
  | nil => exact absurd rfl hne
  | cons lc0 rest =>
    have hpair : List.Pairwise
        (fun a b : (Char × Trie) × RKey => a.1.1 < b.1.1)
        ((lc0 :: rest).map (fun lc => (lc, theKey pw lc))) := by
      refine List.Pairwise.map _ ?_ (keysAsc_pairwise hasc)
      intro a b hab
      exact hab
    obtain ⟨pre, post, hdec, hpre, hmin⟩ :=
      pickBest_first_min (rest.map (fun lc => (lc, theKey pw lc))) (lc0, theKey pw lc0)
    set r := pickBest (lc0, theKey pw lc0) (rest.map (fun lc => (lc, theKey pw lc))) with hr
    have hkeyed : (lc0, theKey pw lc0) :: rest.map (fun lc => (lc, theKey pw lc)) =
        (lc0 :: rest).map (fun lc => (lc, theKey pw lc)) := by
      rw [List.map_cons]
    have hrmem : r ∈ (lc0 :: rest).map (fun lc => (lc, theKey pw lc)) := by
      rw [← hkeyed, hdec]
      exact List.mem_append.mpr (Or.inr (List.mem_cons_self _ _))
    obtain ⟨lc, hlcmem, hlceq⟩ := List.mem_map.mp hrmem
    refine ⟨lc, hlcmem, ?_, ?_, ?_⟩
    · rw [bestWords_cons_eq, ← hr, ← hlceq]
    · intro lc' hmem'
      have : (lc', theKey pw lc') ∈
          (lc0, theKey pw lc0) :: rest.map (fun lc => (lc, theKey pw lc)) := by
        rw [hkeyed]
        exact List.mem_map.mpr ⟨lc', hmem', rfl⟩
      have h' := hmin _ this
      rw [← hlceq] at h'
      simpa using h'
    · intro lc' hmem' htie
      have hmem'' : (lc', theKey pw lc') ∈ pre ++ r :: post := by
        rw [← hdec, hkeyed]
        exact List.mem_map.mpr ⟨lc', hmem', rfl⟩
      rcases List.mem_append.mp hmem'' with hinpre | hinr
      · have hgt := hpre _ hinpre
        rw [← hlceq] at hgt
        simp only at hgt
        rw [htie] at hgt
        rw [keyLt_irrefl] at hgt
        cases hgt
      · rcases List.mem_cons.mp hinr with heq | hinpost
        · have hfst := congrArg Prod.fst heq
          rw [← hlceq] at hfst
          simp only at hfst
          rw [hfst]
        · have hpair' : List.Pairwise
              (fun a b : (Char × Trie) × RKey => a.1.1 < b.1.1) (pre ++ r :: post) := by
            rw [← hdec, hkeyed]
            exact hpair
          have hrel := (List.pairwise_cons.mp (List.pairwise_append.mp hpair').2.1).1
          have hlt := hrel _ hinpost
          rw [← hlceq] at hlt
          simp only at hlt
          exact le_of_lt hlt

/-- C7 witness: hypotheses hold for a concrete two-child candidate node and
the ranked singleton exists by the theorem. -/
theorem bestWords_spec_witness :
    ([('a', Trie.node []), ('b', Trie.node [])] ≠ ([] : List (Char × Trie))) ∧
    keysAsc [('a', Trie.node []), ('b', Trie.node [])] = true ∧
    (∃ lc ∈ [('a', Trie.node []), ('b', Trie.node [])],
      bestWords (.node [('a', Trie.node []), ('b', Trie.node [])]) [] = some (.node [lc])
      ∧ (∀ lc' ∈ [('a', Trie.node []), ('b', Trie.node [])],
          keyLt (theKey [] lc') (theKey [] lc) = false)
      ∧ (∀ lc' ∈ [('a', Trie.node []), ('b', Trie.node [])],
          theKey [] lc' = theKey [] lc → lc.1 ≤ lc'.1)) :=
  ⟨List.cons_ne_nil _ _, by decide,
    bestWords_spec [('a', Trie.node []), ('b', Trie.node [])] []
      (List.cons_ne_nil _ _) (by decide)⟩

/-- C8: the whole program's output (trie construction followed by both
first-mover reports) is a deterministic function of the input word stream
alone: equal inputs give byte-identical reports. -/
theorem programOutput_deterministic (i1 i2 : List (List Char)) (h : i1 = i2) :
    programOutput i1 = programOutput i2 := by
  rw [h]

/-- C8 witness: the determinism theorem applied at a concrete input. -/
theorem programOutput_deterministic_witness :
    [['b','a','l','l']] = [['b','a','l','l']] ∧
    programOutput [['b','a','l','l']] = programOutput [['b','a','l','l']] :=
  ⟨rfl, programOutput_deterministic [['b','a','l','l']] [['b','a','l','l']] rfl⟩

/-- C10: `allWords` on any trie node returns a nonempty list, the ranking
key of every child is therefore defined (its `min`/`sorted(..)[0]` error
branch, modelled as `none`, is unreachable), and `bestWords` succeeds on
every node with at least one child — which is exactly what `winningMoves`
passes it, since it only calls `bestWords` after checking `resultNode` is
truthy (a nonempty candidate mapping). -/
theorem bestWords_total_on_nonempty :
    (∀ (t : Trie) (pw : List Char), allWords t pw ≠ [])
    ∧ (∀ (pw : List Char) (lc : Char × Trie), (childKey pw lc).isSome = true)
    ∧ (∀ (cs : List (Char × Trie)) (pw : List Char), cs ≠ [] →
        (bestWords (.node cs) pw).isSome = true) :=
  ⟨allWords_ne_nil, childKey_isSome, bestWords_isSome⟩

/-- C10 witness: the nonemptiness hypothesis holds and `bestWords` is
defined at a concrete one-child candidate node. -/
theorem bestWords_total_on_nonempty_witness :
    [('a', Trie.node [])] ≠ ([] : List (Char × Trie)) ∧
    (bestWords (.node [('a', Trie.node [])]) []).isSome = true :=
  ⟨List.cons_ne_nil _ _,
    bestWords_total_on_nonempty.2.2 [('a', Trie.node [])] [] (List.cons_ne_nil _ _)⟩

end GhostSolver
